import Mathlib

/-!
Shallow embedding of the Tribonacci/GZR steganography core.

Digit strings from the Python source are modelled as `List Char` over the
characters '0' and '1' (smallest-weight digit first, as in the source after
its reversal step).  Text is modelled as the list of its characters' code
points (`List Nat`).  A grayscale image is a list of pixel rows
(`List (List Nat)`, 8-bit values), scanned row-major exactly as the nested
loops of the encoder and decoder do.
-/

/-- The growth loop of `generate_tribonacci` (tribonacci.py, lines 34-38):
starting from the last three terms `a`, `b`, `c`, while the last term `c` is
below `max_value`, compute `next = a + b + c`; stop without appending when
`next` exceeds `max_value`, otherwise append and continue.  The positivity
arguments only justify termination; they carry no data. -/
def tribGrow (maxV a b c : Nat) (hb : 0 < b) (hc : 0 < c) : List Nat :=
  if c < maxV then
    if a + b + c > maxV then []
    else (a + b + c) :: tribGrow maxV b c (a + b + c) hc (by omega)
  else []
termination_by maxV - c
decreasing_by omega

/-- `generate_tribonacci(max_value)` (tribonacci.py, lines 29-40): returns
`[]` when `max_value < 1`, otherwise the seed `[1, 2, 4]` extended by the
growth loop.  The threshold is an integer, as in Python. -/
def generate_tribonacci (max_value : Int) : List Nat :=
  if max_value < 1 then []
  else 1 :: 2 :: 4 :: tribGrow max_value.toNat 1 2 4 (by omega) (by omega)

/-- The greedy loop of `decimal_to_gzr` (tribonacci.py, lines 73-78): walk
the given weights (the sequence reversed, so largest first), emitting '1'
and subtracting when the weight fits in the remainder, '0' otherwise. -/
def greedyBits : List Nat → Nat → List Char
  | [], _ => []
  | t :: ts, remaining =>
    if t ≤ remaining then '1' :: greedyBits ts (remaining - t)
    else '0' :: greedyBits ts remaining

/-- `decimal_to_gzr(n, tribonacci_seq)` (tribonacci.py, lines 43-83) with the
sequence passed explicitly, as every caller in the claims does: `"0"` for
`n <= 0`; otherwise greedy digits largest-weight-first, reversed to
smallest-weight-first, left-stripped of '0' (Python `lstrip('0')`), with
`"0"` returned if everything was stripped. -/
def decimal_to_gzr (n : Int) (tribonacci_seq : List Nat) : List Char :=
  if n ≤ 0 then ['0']
  else
    let bits := greedyBits tribonacci_seq.reverse n.toNat
    let result := bits.reverse.dropWhile (fun c => c == '0')
    if result.isEmpty then ['0'] else result

/-- `gzr_to_decimal(gzr_bits, tribonacci_seq)` (tribonacci.py, lines 86-116)
with the sequence passed explicitly: 0 for the empty string or `"0"`,
otherwise the sum of `tribonacci_seq[i]` over the indices `i` holding '1'
that are in range of the sequence.  The source guard `i < len(seq)` inside
its loop over `enumerate(gzr_bits)` is the `zip` truncation here. -/
def gzr_to_decimal (gzr_bits : List Char) (tribonacci_seq : List Nat) : Nat :=
  if gzr_bits.isEmpty || gzr_bits == ['0'] then 0
  else
    ((gzr_bits.zip tribonacci_seq).filter (fun p => p.1 == '1')).foldl
      (fun acc p => acc + p.2) 0

/-- Python `str.zfill` on a sign-free digit string: left-pad with '0' up to
`width`; strings already at least `width` long are unchanged. -/
def zfill (width : Nat) (s : List Char) : List Char :=
  List.replicate (width - s.length) '0' ++ s

/-- `text_to_gzr(text)` (tribonacci.py, lines 119-145): one 9-digit
`zfill`-padded GZR slot per character code point, concatenated in text
order, against the threshold-255 sequence. -/
def text_to_gzr (text : List Nat) : List Char :=
  let tribonacci_seq := generate_tribonacci 255
  (text.map (fun ascii_val => zfill 9 (decimal_to_gzr ascii_val tribonacci_seq))).flatten

/-- The chunking loop of `gzr_to_text` (tribonacci.py, lines 166-167):
successive 9-character slices of the bit string, the last possibly short. -/
def chunks9 (l : List Char) : List (List Char) :=
  if h : l.isEmpty then [] else l.take 9 :: chunks9 (l.drop 9)
termination_by l.length
decreasing_by
  cases l with
  | nil => simp at h
  | cons x xs => simp [List.length_drop]; omega

/-- `gzr_to_text(gzr_bits)` (tribonacci.py, lines 148-173): decode each
complete 9-digit chunk with the threshold-255 sequence, keep the strictly
positive values (null slots are skipped), drop an incomplete tail chunk. -/
def gzr_to_text (gzr_bits : List Char) : List Nat :=
  let tribonacci_seq := generate_tribonacci 255
  (chunks9 gzr_bits).filterMap (fun chunk =>
    if chunk.length == 9 then
      let ascii_val := gzr_to_decimal chunk tribonacci_seq
      if ascii_val > 0 then some ascii_val else none
    else none)

/-- Python `gzr_bits.count("111")`: non-overlapping occurrences of "111",
scanned left to right. -/
def count111 : List Char → Nat
  | '1' :: '1' :: '1' :: rest => count111 rest + 1
  | _ :: rest => count111 rest
  | [] => 0

/-- `verify_no_111_pattern(gzr_bits)` (tribonacci.py, lines 176-191):
`(is_valid, count_111)`. -/
def verify_no_111_pattern (gzr_bits : List Char) : Bool × Nat :=
  let c := count111 gzr_bits
  (c == 0, c)

/-- The per-pixel update of `GZREncoder._embed_bits` (encoder.py, line 140):
`(pixel_value & 0xFE) | bit_to_embed`, where `int(bits[k])` is 1 for the
digit '1' and 0 for the digit '0'. -/
def embedPix (pixel_value : Nat) (bit : Char) : Nat :=
  (pixel_value &&& 0xFE) ||| (if bit == '1' then 1 else 0)

/-- One row of the embedding loop (encoder.py, lines 130-144): consume one
bit per pixel; once the bits run out the remaining pixels are untouched
(the source's early `return stego`).  Returns the new row and the bits left
for the following rows. -/
def embedRow : List Nat → List Char → List Nat × List Char
  | [], bits => ([], bits)
  | row, [] => (row, [])
  | p :: ps, b :: bs =>
    let res := embedRow ps bs
    (embedPix p b :: res.1, res.2)

/-- The outer row loop of `_embed_bits`, threading the unconsumed bits. -/
def embedRows : List (List Nat) → List Char → List (List Nat)
  | [], _ => []
  | row :: rest, bits =>
    let res := embedRow row bits
    res.1 :: embedRows rest res.2

/-- `GZREncoder._embed_bits(bits)` (encoder.py, lines 113-147) applied to a
pixel grid: the source copies the image first and mutates the copy, so the
functional result is the new grid. -/
def embed_bits (grid : List (List Nat)) (bits : List Char) : List (List Nat) :=
  embedRows grid bits

/-- `str(pixel_value & 1)` (decoder.py, lines 90-92) as a digit character. -/
def lsbChar (pixel_value : Nat) : Char :=
  if pixel_value &&& 1 == 1 then '1' else '0'

/-- One row of the extraction loop (decoder.py, lines 86-97): the running
`bit_index` counts every pixel; the LSB is collected exactly when
`start_bit <= bit_index < stop`.  Returns the collected digits and the
updated `bit_index`.  The source's early return once `bit_index` reaches
`stop` only skips pixels that would collect nothing. -/
def extractRow : List Nat → Nat → Nat → Nat → List Char × Nat
  | [], bit_index, _, _ => ([], bit_index)
  | p :: ps, bit_index, start_bit, stop =>
    let res := extractRow ps (bit_index + 1) start_bit stop
    if start_bit ≤ bit_index ∧ bit_index < stop then (lsbChar p :: res.1, res.2)
    else (res.1, res.2)

/-- The outer row loop of `_extract_bits`, threading `bit_index`. -/
def extractRows : List (List Nat) → Nat → Nat → Nat → List Char
  | [], _, _, _ => []
  | row :: rest, bit_index, start_bit, stop =>
    let res := extractRow row bit_index start_bit stop
    res.1 ++ extractRows rest res.2 start_bit stop

/-- `GZRDecoder._extract_bits(start_bit, length)` (decoder.py, lines 69-99)
on a pixel grid: the digits at scan positions `[start_bit, start_bit +
length)` in row-major order. -/
def extract_bits (grid : List (List Nat)) (start_bit length : Nat) : List Char :=
  extractRows grid 0 start_bit (start_bit + length)

/-- `GZREncoder.get_capacity()` (encoder.py, lines 42-53): `H*W // 8` bytes,
with the width read off the first row as numpy's `shape` does. -/
def get_capacity (grid : List (List Nat)) : Nat :=
  (grid.length * (grid.headD []).length) / 8

/-- Python `format(n, '032b')` without the padding: the plain binary digits
of `n`, most significant first, `"0"` for zero. -/
def natToBinAux : Nat → List Char → List Char
  | 0, acc => acc
  | n + 1, acc =>
    natToBinAux ((n + 1) / 2) ((if (n + 1) % 2 == 1 then '1' else '0') :: acc)
termination_by n => n
decreasing_by omega

/-- Python `format(n, '032b')` (encoder.py, line 89): binary rendering of
`n`, most significant digit first, left-padded with '0' to 32 digits. -/
def format032b (n : Nat) : List Char :=
  zfill 32 (if n == 0 then ['0'] else natToBinAux n [])

/-- The error raised by `encode_message` when the capacity check fails
(encoder.py, lines 74-77; `ValueError` in the source). -/
inductive EncodeError where
  | capacityExceeded
deriving DecidableEq

/-- `GZREncoder.encode_message(message)` (encoder.py, lines 55-111) without
its printing and file I/O: encode the message, check `len(bits)//8 + 1`
against the byte capacity, raise before touching any pixel if it exceeds,
otherwise prepend the 32-bit length header and embed. -/
def encode_message (grid : List (List Nat)) (message : List Nat) :
    Except EncodeError (List (List Nat)) :=
  let encoded_bits := text_to_gzr message
  let capacity := get_capacity grid
  let required := encoded_bits.length / 8 + 1
  if required > capacity then .error .capacityExceeded
  else
    let length_bits := format032b encoded_bits.length
    let full_bits := length_bits ++ encoded_bits
    .ok (embed_bits grid full_bits)

/-! ## Theorems

`tribGrow` and `chunks9` are defined by well-founded recursion, so proofs
evaluate them through their equation lemmas rather than by `decide`. -/

/-- Concrete value of the threshold-255 weight sequence used by the text
codec: the Tribonacci terms up to 255. -/
theorem seq255_eq :
    generate_tribonacci 255 = [1, 2, 4, 7, 13, 24, 44, 81, 149] := by
  simp [generate_tribonacci]
  rw [tribGrow, tribGrow, tribGrow, tribGrow, tribGrow, tribGrow, tribGrow]
  norm_num

/-- C1 counterexample: with the threshold-255 sequence, `decimal_to_gzr 2`
yields `"10000000"` (the weight-1 zero digit was stripped, shifting the
weight-2 digit into position 0), which `gzr_to_decimal` reads back as 1,
not 2. -/
theorem c1_roundtrip_counterexample :
    gzr_to_decimal (decimal_to_gzr 2 (generate_tribonacci 255))
        (generate_tribonacci 255) = 1 ∧
      ¬ gzr_to_decimal (decimal_to_gzr 2 (generate_tribonacci 255))
          (generate_tribonacci 255) = 2 := by
  simp only [seq255_eq]
  decide

set_option maxRecDepth 40000 in
/-- C1 (amended): for every `n` in `[1, 255]` and the threshold-255 weight
sequence, the greedy encoder's output decodes back to `n` precisely when
the output still has all 9 digit positions — that is, when its
lowest-weight digit is '1' and the left-strip removed nothing.  For the
other values (such as `n = 2`) the strip shifts every digit down and the
decoded value differs from `n`. -/
theorem c1_roundtrip_amended (n : Nat) (hlt : n < 256) (hpos : 1 ≤ n) :
    gzr_to_decimal (decimal_to_gzr n (generate_tribonacci 255))
        (generate_tribonacci 255) = n ↔
      (decimal_to_gzr n (generate_tribonacci 255)).length = 9 := by
  simp only [seq255_eq]
  revert hpos
  revert n hlt
  decide

/-- Witness for `c1_roundtrip_amended` at `n = 5`: the encoding of 5 keeps
all 9 digits and the round trip indeed returns 5. -/
theorem c1_roundtrip_witness :
    gzr_to_decimal (decimal_to_gzr 5 (generate_tribonacci 255))
        (generate_tribonacci 255) = 5 :=
  (c1_roundtrip_amended 5 (by decide) (by decide)).mpr
    (by simp only [seq255_eq]; decide)

set_option maxRecDepth 40000 in
/-- C4: for every `n` in `[1, 255]`, the digit string produced by the
greedy encoder against the threshold-255 sequence (before any padding)
contains no occurrence of "111", so `verify_no_111_pattern` returns
`(true, 0)` on it. -/
theorem c4_no_111 (n : Nat) (hlt : n < 256) (hpos : 1 ≤ n) :
    verify_no_111_pattern (decimal_to_gzr n (generate_tribonacci 255)) =
      (true, 0) := by
  simp only [seq255_eq]
  revert hpos
  revert n hlt
  decide

/-- Witness for `c4_no_111` at `n = 65`. -/
theorem c4_no_111_witness :
    verify_no_111_pattern (decimal_to_gzr 65 (generate_tribonacci 255)) =
      (true, 0) :=
  c4_no_111 65 (by decide) (by decide)

/-- C5 counterexample: `generate_tribonacci` does not return the seed
unconditionally — for the threshold 0 (which is strictly below 1) it
returns the empty list, because of the early `if max_value < 1: return []`
guard, so the result does not begin with `[1, 2, 4]`. -/
theorem c5_seed_counterexample :
    generate_tribonacci 0 = [] ∧
      ¬ (generate_tribonacci 0).take 3 = [1, 2, 4] := by
  constructor
  · simp [generate_tribonacci]
  · simp [generate_tribonacci]

/-- C5 (amended): for every threshold at least 1 — not for thresholds below
1, where the guard returns `[]` — the sequence begins with the literal seed
`[1, 2, 4]`; in particular a threshold below 4 still yields terms above the
threshold. -/
theorem c5_seed_amended (max_value : Int) (h : 1 ≤ max_value) :
    (generate_tribonacci max_value).take 3 = [1, 2, 4] := by
  rw [generate_tribonacci, if_neg (by omega)]
  rfl

/-- Witness for `c5_seed_amended` at threshold 1 (below the seed's last
term 4): the result still begins with `[1, 2, 4]`. -/
theorem c5_seed_witness : (generate_tribonacci 1).take 3 = [1, 2, 4] :=
  c5_seed_amended 1 (by norm_num)

/-- Every term appended by the growth loop exceeds the term before it:
the next term is the sum of the last three, and the middle one is
positive. -/
theorem tribGrow_chain (maxV a b c : Nat) (hb : 0 < b) (hc : 0 < c) :
    List.Chain (· < ·) c (tribGrow maxV a b c hb hc) := by
  rw [tribGrow]
  split
  · split
    · exact List.Chain.nil
    · exact List.Chain.cons (by omega) (tribGrow_chain maxV b c (a + b + c) hc (by omega))
  · exact List.Chain.nil
termination_by maxV - c
decreasing_by omega

/-- C6: for every threshold at least 1, `generate_tribonacci` returns a
non-empty sequence whose terms are strictly increasing. -/
theorem c6_seq_invariants (max_value : Int) (h : 1 ≤ max_value) :
    generate_tribonacci max_value ≠ [] ∧
      List.Chain' (· < ·) (generate_tribonacci max_value) := by
  rw [generate_tribonacci, if_neg (by omega)]
  refine ⟨by simp, ?_⟩
  simp only [List.Chain', List.chain_cons]
  exact ⟨by omega, by omega, tribGrow_chain _ 1 2 4 (by omega) (by omega)⟩

/-- Witness for `c6_seq_invariants` at threshold 255. -/
theorem c6_seq_invariants_witness :
    generate_tribonacci 255 ≠ [] ∧
      List.Chain' (· < ·) (generate_tribonacci 255) :=
  c6_seq_invariants 255 (by norm_num)

/-- C7: `encode_message` reports `CapacityExceeded` exactly when the
payload's byte estimate `len(payloadBits) // 8 + 1` — computed from the
GZR payload alone, without the 32-bit header — exceeds the image's byte
capacity `H*W // 8`.  The check runs before `_embed_bits` is ever called,
and the embedding itself is total, so a failing encode touches no pixel. -/
theorem c7_capacity_iff (grid : List (List Nat)) (W : Nat)
    (hW : ∀ row ∈ grid, row.length = W) (message : List Nat) :
    encode_message grid message = .error .capacityExceeded ↔
      (text_to_gzr message).length / 8 + 1 > grid.length * W / 8 := by
  have hcap : get_capacity grid = grid.length * W / 8 := by
    cases grid with
    | nil => simp [get_capacity]
    | cons r rest => simp [get_capacity, hW r (by simp)]
  unfold encode_message
  rw [hcap]
  by_cases hreq : (text_to_gzr message).length / 8 + 1 > grid.length * W / 8
  · simp [hreq]
  · simp [hreq]

/-- Witness for `c7_capacity_iff`: a 1-by-1 grid has byte capacity 0, and a
one-character message needs 2 estimated bytes, so encoding fails. -/
theorem c7_capacity_witness :
    encode_message [[0]] [65] = .error .capacityExceeded :=
  (c7_capacity_iff [[0]] 1 (by simp) [65]).mpr
    (by simp only [seq255_eq, text_to_gzr]; decide)

/-- Every digit the greedy loop emits is '0' or '1'. -/
theorem greedyBits_digits (ts : List Nat) (r : Nat) :
    ∀ c ∈ greedyBits ts r, c = '0' ∨ c = '1' := by
  induction ts generalizing r with
  | nil => simp [greedyBits]
  | cons t ts ih =>
    intro c hc
    rw [greedyBits] at hc
    split at hc <;> rcases List.mem_cons.mp hc with h | h
    · right; exact h
    · exact ih _ c h
    · left; exact h
    · exact ih _ c h

/-- Left-stripping '0' from a string of '0'/'1' digits leaves either
nothing or a string starting with '1'. -/
theorem dropWhile_zero_cases (l : List Char)
    (h : ∀ c ∈ l, c = '0' ∨ c = '1') :
    l.dropWhile (fun c => c == '0') = [] ∨
      ∃ t, l.dropWhile (fun c => c == '0') = '1' :: t := by
  induction l with
  | nil => left; rfl
  | cons c cs ih =>
    by_cases hc : c = '0'
    · rw [List.dropWhile_cons, if_pos (by simp [hc])]
      exact ih fun x hx => h x (List.mem_cons_of_mem _ hx)
    · have hc1 : c = '1' := (h c (by simp)).resolve_left hc
      right
      exact ⟨cs, by rw [List.dropWhile_cons, if_neg (by simp [hc]), hc1]⟩

/-- C10: for every integer `n` and every weight sequence, `decimal_to_gzr`
returns a non-empty string over the digits '0' and '1' that is either
exactly `"0"` or begins with '1' — the left-strip leaves no leading zero
in any other output. -/
theorem c10_gzr_output_shape (n : Int) (seq : List Nat) :
    decimal_to_gzr n seq ≠ [] ∧
      (∀ c ∈ decimal_to_gzr n seq, c = '0' ∨ c = '1') ∧
      (decimal_to_gzr n seq = ['0'] ∨
        (decimal_to_gzr n seq).head? = some '1') := by
  by_cases hn : n ≤ 0
  · simp [decimal_to_gzr, hn]
  · simp only [decimal_to_gzr, if_neg hn]
    have hdig : ∀ c ∈ (greedyBits seq.reverse n.toNat).reverse,
        c = '0' ∨ c = '1' :=
      fun c hc => greedyBits_digits _ _ c (List.mem_reverse.mp hc)
    rcases dropWhile_zero_cases _ hdig with hnil | ⟨t, ht⟩
    · rw [hnil]
      simp
    · rw [ht]
      refine ⟨by simp, ?_, Or.inr rfl⟩
      intro c hc
      exact hdig c (((ht ▸ List.dropWhile_sublist _).mem) hc)

set_option maxRecDepth 80000 in
/-- Each character slot of the text codec: for every code point up to 255,
the `zfill 9`-padded GZR string has exactly 9 digits, and — because the
padding re-inserts precisely the zeros the left-strip removed — decoding
the padded slot with the threshold-255 sequence recovers the code point. -/
theorem slot_correct (c : Nat) (hc : c < 256) :
    (zfill 9 (decimal_to_gzr c (generate_tribonacci 255))).length = 9 ∧
      gzr_to_decimal (zfill 9 (decimal_to_gzr c (generate_tribonacci 255)))
        (generate_tribonacci 255) = c := by
  simp only [seq255_eq]
  revert c hc
  decide

/-- Unfolding of `text_to_gzr` on one character. -/
theorem text_to_gzr_cons (c : Nat) (text : List Nat) :
    text_to_gzr (c :: text) =
      zfill 9 (decimal_to_gzr c (generate_tribonacci 255)) ++
        text_to_gzr text := by
  simp [text_to_gzr]

/-- C9: for a text whose code points all lie in `[0, 255]`, `text_to_gzr`
is the concatenation, in text order, of one 9-digit slot per character
(the character's GZR string left-padded with '0' to width 9), and its
length is exactly `9 * len(text)`. -/
theorem c9_fixed_width_slots (text : List Nat) (h : ∀ c ∈ text, c ≤ 255) :
    (text_to_gzr text).length = 9 * text.length ∧
      text_to_gzr text =
        (text.map (fun c =>
          zfill 9 (decimal_to_gzr c (generate_tribonacci 255)))).flatten ∧
      ∀ c ∈ text,
        (zfill 9 (decimal_to_gzr c (generate_tribonacci 255))).length = 9 := by
  refine ⟨?_, rfl, fun c hc => (slot_correct c (by have := h c hc; omega)).1⟩
  induction text with
  | nil => simp [text_to_gzr]
  | cons c cs ih =>
    rw [text_to_gzr_cons, List.length_append,
      (slot_correct c (by have := h c (by simp); omega)).1,
      ih fun x hx => h x (List.mem_cons_of_mem _ hx)]
    simp [Nat.mul_succ]
    omega

/-- Witness for `c9_fixed_width_slots` on the text "AB" (code points 65,
66): 18 digits, two 9-digit slots. -/
theorem c9_fixed_width_witness :
    (text_to_gzr [65, 66]).length = 9 * 2 :=
  (c9_fixed_width_slots [65, 66] (by decide)).1

/-- `chunks9` on the empty string. -/
theorem chunks9_nil : chunks9 [] = [] := by
  rw [chunks9]
  rfl

/-- `chunks9` peels off a leading complete 9-digit slot. -/
theorem chunks9_cons9 (s rest : List Char) (hs : s.length = 9) :
    chunks9 (s ++ rest) = s :: chunks9 rest := by
  rw [chunks9]
  have hne : (s ++ rest).isEmpty = false := by
    cases s with
    | nil => simp at hs
    | cons x xs => simp
  rw [dif_neg (by simp [hne])]
  rw [List.take_left' hs, List.drop_left' hs]

/-- `gzr_to_text` on a string starting with one complete 9-digit slot:
decode the slot, keep it when positive, and continue with the rest. -/
theorem gzr_to_text_slot (s rest : List Char) (hs : s.length = 9) :
    gzr_to_text (s ++ rest) =
      (if 0 < gzr_to_decimal s (generate_tribonacci 255)
        then [gzr_to_decimal s (generate_tribonacci 255)] else []) ++
        gzr_to_text rest := by
  simp only [gzr_to_text]
  rw [chunks9_cons9 s rest hs, List.filterMap_cons]
  by_cases hpos : 0 < gzr_to_decimal s (generate_tribonacci 255)
  · simp [hs, hpos]
  · simp [hs, hpos]

/-- C2: for a text whose code points all lie in `[0, 255]`, decoding the
encoded bitstream returns the text with every code point 0 removed; in
particular the round trip is the identity on texts over `[1, 255]`. -/
theorem c2_text_roundtrip (text : List Nat) (h : ∀ c ∈ text, c ≤ 255) :
    gzr_to_text (text_to_gzr text) = text.filter (fun c => c != 0) ∧
      ((∀ c ∈ text, 1 ≤ c) → gzr_to_text (text_to_gzr text) = text) := by
  have main : ∀ t : List Nat, (∀ c ∈ t, c ≤ 255) →
      gzr_to_text (text_to_gzr t) = t.filter (fun c => c != 0) := by
    intro t ht
    induction t with
    | nil =>
      show gzr_to_text [] = []
      simp only [gzr_to_text, chunks9_nil]
      rfl
    | cons c cs ih =>
      have hc : c < 256 := by have := ht c (by simp); omega
      rw [text_to_gzr_cons,
        gzr_to_text_slot _ _ (slot_correct c hc).1,
        (slot_correct c hc).2,
        ih fun x hx => ht x (List.mem_cons_of_mem _ hx),
        List.filter_cons]
      by_cases hc0 : c = 0
      · simp [hc0]
      · simp [hc0, Nat.pos_of_ne_zero hc0]
  refine ⟨main text h, fun hpos => ?_⟩
  rw [main text h, List.filter_eq_self.mpr]
  intro a ha
  have := hpos a ha
  simp
  omega

/-- Witness for `c2_text_roundtrip` on the text with code points
`[72, 0, 105]`: the embedded 0 is dropped, the rest survives. -/
theorem c2_text_roundtrip_witness :
    gzr_to_text (text_to_gzr [72, 0, 105]) = [72, 105] := by
  have := (c2_text_roundtrip [72, 0, 105] (by decide)).1
  simpa using this

/-- Closed form of one embedding row: the prefix covered by bits is
rewritten pixelwise, the rest of the row survives, and the bits the row
consumed are dropped. -/
theorem embedRow_eq (row : List Nat) (bits : List Char) :
    embedRow row bits =
      (List.zipWith embedPix row bits ++ row.drop bits.length,
        bits.drop row.length) := by
  induction row generalizing bits with
  | nil => cases bits <;> simp [embedRow]
  | cons p ps ih =>
    cases bits with
    | nil => simp [embedRow]
    | cons b bs => simp [embedRow, ih]

/-- `zipWith` distributes over an append on the left, dropping the consumed
prefix of the right list. -/
theorem zipWith_append_drop {α β γ : Type} (f : α → β → γ) :
    ∀ (r s : List α) (bits : List β),
      List.zipWith f (r ++ s) bits =
        List.zipWith f r bits ++ List.zipWith f s (bits.drop r.length) := by
  intro r
  induction r with
  | nil => intro s bits; simp
  | cons a as ih =>
    intro s bits
    cases bits with
    | nil => simp
    | cons b bs => simp [ih]

/-- Row-major effect of the whole embedding loop: on the flattened grid,
the first `min (len bits) (H*W)` pixels are rewritten by `embedPix`, the
rest are untouched. -/
theorem embedRows_flatten : ∀ (grid : List (List Nat)) (bits : List Char),
    (embedRows grid bits).flatten =
      List.zipWith embedPix grid.flatten bits ++
        grid.flatten.drop bits.length := by
  intro grid
  induction grid with
  | nil => intro bits; simp [embedRows]
  | cons row rest ih =>
    intro bits
    simp only [embedRows, embedRow_eq, List.flatten_cons]
    rw [ih (bits.drop row.length), List.length_drop,
      zipWith_append_drop, List.drop_append_eq_append_drop]
    by_cases hle : bits.length ≤ row.length
    · rw [List.drop_eq_nil_of_le (le_trans hle (by simp))]
      rw [Nat.sub_eq_zero_of_le hle]
      simp
    · push_neg at hle
      rw [List.drop_eq_nil_of_le (le_of_lt hle)]
      simp

/-- Embedding preserves the length of every row. -/
theorem embedRow_length (row : List Nat) (bits : List Char) :
    (embedRow row bits).1.length = row.length := by
  rw [embedRow_eq]
  simp [List.length_zipWith]
  omega

/-- Embedding preserves the shape of the grid. -/
theorem embedRows_shape : ∀ (grid : List (List Nat)) (bits : List Char),
    (embedRows grid bits).map List.length = grid.map List.length := by
  intro grid
  induction grid with
  | nil => intro bits; simp [embedRows]
  | cons row rest ih => intro bits; simp [embedRows, embedRow_length, ih]

/-- Extraction with `start_bit = 0` over one row collects the LSBs of the
pixels whose running index is below `stop`. -/
theorem extractRow_zero (row : List Nat) : ∀ (idx stop : Nat),
    extractRow row idx 0 stop =
      ((row.take (stop - idx)).map lsbChar, idx + row.length) := by
  induction row with
  | nil => intro idx stop; simp [extractRow]
  | cons p ps ih =>
    intro idx stop
    simp only [extractRow, ih]
    by_cases hlt : idx < stop
    · rw [if_pos ⟨Nat.zero_le _, hlt⟩, List.take_cons (by omega)]
      have he : stop - (idx + 1) = stop - idx - 1 := by omega
      rw [he]
      simp
      omega
    · rw [if_neg (by omega)]
      have h1 : stop - idx = 0 := by omega
      have h2 : stop - (idx + 1) = 0 := by omega
      rw [h1, h2]
      simp
      omega

/-- Extraction with `start_bit = 0` over the whole grid collects the LSBs
of the first `stop - idx` pixels in row-major order. -/
theorem extractRows_zero : ∀ (grid : List (List Nat)) (idx stop : Nat),
    extractRows grid idx 0 stop =
      (grid.flatten.take (stop - idx)).map lsbChar := by
  intro grid
  induction grid with
  | nil => intro idx stop; simp [extractRows]
  | cons row rest ih =>
    intro idx stop
    simp only [extractRows, extractRow_zero]
    rw [ih (idx + row.length) stop, List.flatten_cons,
      List.take_append_eq_append_take, List.map_append]
    have he : stop - (idx + row.length) = stop - idx - row.length := by omega
    rw [he]

/-- `_extract_bits(0, length)` reads back the LSBs of the first `length`
pixels in row-major order. -/
theorem extract_bits_zero (grid : List (List Nat)) (length : Nat) :
    extract_bits grid 0 length = (grid.flatten.take length).map lsbChar := by
  rw [extract_bits, extractRows_zero]
  norm_num

set_option maxRecDepth 10000 in
/-- For an 8-bit pixel, the LSB of the embedded pixel is exactly the
embedded digit. -/
theorem lsb_embedPix : ∀ p : Nat, p < 256 →
    lsbChar (embedPix p '0') = '0' ∧ lsbChar (embedPix p '1') = '1' := by
  decide

/-- Reading the LSBs of a pixelwise-embedded prefix recovers the embedded
digits, provided the frame is binary and fits. -/
theorem map_lsb_zipWith : ∀ (flat : List Nat) (frame : List Char),
    (∀ p ∈ flat, p < 256) → (∀ c ∈ frame, c = '0' ∨ c = '1') →
    frame.length ≤ flat.length →
    (List.zipWith embedPix flat frame).map lsbChar = frame := by
  intro flat
  induction flat with
  | nil =>
    intro frame _ _ hlen
    have : frame = [] := List.eq_nil_of_length_eq_zero (Nat.le_zero.mp hlen)
    simp [this]
  | cons p ps ih =>
    intro frame hp hb hlen
    cases frame with
    | nil => simp
    | cons c cs =>
      simp only [List.zipWith_cons_cons, List.map_cons]
      have hpc : lsbChar (embedPix p c) = c := by
        rcases hb c (by simp) with rfl | rfl
        · exact (lsb_embedPix p (hp p (by simp))).1
        · exact (lsb_embedPix p (hp p (by simp))).2
      rw [hpc, ih cs (fun x hx => hp x (List.mem_cons_of_mem _ hx))
        (fun x hx => hb x (List.mem_cons_of_mem _ hx)) (by simpa using hlen)]

/-- C8: `_embed_bits` returns a grid of the same shape whose row-major
flattening rewrites the pixel at scan index `k` to
`(oldValue AND 0xFE) OR bit(k)` for every `k` below
`min (len bits) (H*W)` and keeps every later pixel unchanged; it consumes
any overlong bit string without error (the `zipWith` simply truncates),
and the input grid is untouched (the source mutates only its copy). -/
theorem c8_embed_frame_effect (grid : List (List Nat)) (bits : List Char)
    (hbin : ∀ c ∈ bits, c = '0' ∨ c = '1') :
    (embed_bits grid bits).map List.length = grid.map List.length ∧
      (embed_bits grid bits).flatten =
        List.zipWith
          (fun p b => (p &&& 0xFE) ||| (if b == '1' then 1 else 0))
          grid.flatten bits ++ grid.flatten.drop bits.length :=
  ⟨embedRows_shape grid bits, embedRows_flatten grid bits⟩

/-- Witness for `c8_embed_frame_effect` on a 2-by-2 grid and a 3-digit
string: three LSBs rewritten, the fourth pixel untouched. -/
theorem c8_embed_frame_witness :
    (embed_bits [[6, 7], [8, 9]] ['1', '0', '1']).flatten =
      List.zipWith
        (fun p b => (p &&& 0xFE) ||| (if b == '1' then 1 else 0))
        [6, 7, 8, 9] ['1', '0', '1'] ++ List.drop 3 [6, 7, 8, 9] := by
  have := (c8_embed_frame_effect [[6, 7], [8, 9]] ['1', '0', '1']
    (by decide)).2
  simpa using this

/-- C3: for an `H`-by-`W` grid of 8-bit pixels and a binary frame no longer
than `H*W`, extracting `len(frame)` digits from scan position 0 of the
embedded grid returns exactly the frame — both loops scan row-major. -/
theorem c3_embed_extract_roundtrip (grid : List (List Nat)) (W : Nat)
    (frame : List Char)
    (hW : ∀ row ∈ grid, row.length = W)
    (hpix : ∀ row ∈ grid, ∀ p ∈ row, p < 256)
    (hbin : ∀ c ∈ frame, c = '0' ∨ c = '1')
    (hlen : frame.length ≤ grid.length * W) :
    extract_bits (embed_bits grid frame) 0 frame.length = frame := by
  have hflat_len : grid.flatten.length = grid.length * W := by
    clear hlen
    induction grid with
    | nil => simp
    | cons r rs ih =>
      rw [List.flatten_cons, List.length_append, hW r (by simp),
        ih (fun x hx => hW x (List.mem_cons_of_mem _ hx))
          (fun x hx => hpix x (List.mem_cons_of_mem _ hx))]
      rw [List.length_cons, Nat.succ_mul]
      omega
  have hpix' : ∀ p ∈ grid.flatten, p < 256 := by
    intro p hp
    rcases List.mem_flatten.mp hp with ⟨row, hrow, hpr⟩
    exact hpix row hrow p hpr
  rw [extract_bits_zero, embed_bits, embedRows_flatten]
  rw [List.take_left' (by rw [List.length_zipWith]; omega)]
  exact map_lsb_zipWith grid.flatten frame hpix' hbin (by omega)

/-- Witness for `c3_embed_extract_roundtrip` on a 2-by-2 grid and the
frame "110". -/
theorem c3_embed_extract_witness :
    extract_bits (embed_bits [[10, 20], [30, 40]] ['1', '1', '0']) 0 3 =
      ['1', '1', '0'] :=
  c3_embed_extract_roundtrip [[10, 20], [30, 40]] 2 ['1', '1', '0']
    (by decide) (by decide) (by decide) (by decide)
